import Mathlib

/-!
Verification of the folder-to-object-storage synchronization and parallel
upload engine (`r2_uploader_core.py`).

Strings are modelled as `List Char`.  The key sanitizer is the code sequence

  base, ext = os.path.splitext(r2_key)
  r2_key = base.replace(" ", "_").replace(".", "_") + ext

`os.path.splitext` is modelled faithfully to CPython's `genericpath._splitext`
with `sep = '/'` and `extsep = '.'` (the keys being sanitized use `/`
separators): find the last `.` and the last `/`; the split happens at the last
dot only when it lies after the last separator and at least one character
strictly between the separator and the dot is not a dot (the "leading dots of
the basename carry no extension" rule).
-/

namespace R2Sync

abbrev Chars := List Char

/-- `s.replace(a, b)` for single characters `a`, `b`: a character map. -/
def replaceChar (a b : Char) (s : Chars) : Chars :=
  s.map (fun c => if c = a then b else c)

/-- `base.replace(" ", "_").replace(".", "_")`: spaces first, then dots. -/
def sanitizeChars (s : Chars) : Chars :=
  replaceChar '.' '_' (replaceChar ' ' '_' s)

/-- Index of the last occurrence of `c` in `p` (Python `str.rfind`,
with `none` standing for `-1`). -/
def rfindChar (c : Char) : Chars → Option Nat
  | [] => none
  | x :: xs =>
    match rfindChar c xs with
    | some i => some (i + 1)
    | none => if x = c then some 0 else none

/-- Index of the first character of the final path component:
one past the last `/`, or `0` when there is no `/`. -/
def fstartOf (p : Chars) : Nat :=
  match rfindChar '/' p with
  | none => 0
  | some i => i + 1

/-- `os.path.splitext` (POSIX semantics, `sep = '/'`): split at the last dot
when it lies in the final component after at least one non-dot character. -/
def splitext (p : Chars) : Chars × Chars :=
  match rfindChar '.' p with
  | none => (p, [])
  | some d =>
    if (List.range d).any (fun j => decide (fstartOf p ≤ j) && (p.getD j '.' != '.'))
    then (p.take d, p.drop d)
    else (p, [])

/-- The key sanitizer: `base, ext = splitext(k); base.replace(" ","_").replace(".","_") + ext`. -/
def sanitize (p : Chars) : Chars :=
  sanitizeChars (splitext p).1 ++ (splitext p).2

/-! ### Character-map lemmas -/

theorem sanitizeChars_eq_map (s : Chars) :
    sanitizeChars s = s.map (fun c => if c = ' ' ∨ c = '.' then '_' else c) := by
  simp only [sanitizeChars, replaceChar, List.map_map]
  refine List.map_congr_left (fun c _ => ?_)
  by_cases h1 : c = ' ' <;> by_cases h2 : c = '.' <;> simp [h1, h2, Function.comp]

theorem dot_not_mem_sanitizeChars (s : Chars) : '.' ∉ sanitizeChars s := by
  rw [sanitizeChars_eq_map]
  intro h
  rcases List.mem_map.1 h with ⟨c, _, hc⟩
  by_cases h1 : c = ' ' ∨ c = '.'
  · rw [if_pos h1] at hc
    exact absurd hc (by decide)
  · rw [if_neg h1] at hc
    exact h1 (Or.inr hc)

theorem space_not_mem_sanitizeChars (s : Chars) : ' ' ∉ sanitizeChars s := by
  rw [sanitizeChars_eq_map]
  intro h
  rcases List.mem_map.1 h with ⟨c, _, hc⟩
  by_cases h1 : c = ' ' ∨ c = '.'
  · rw [if_pos h1] at hc
    exact absurd hc (by decide)
  · rw [if_neg h1] at hc
    exact h1 (Or.inl hc)

theorem sanitizeChars_idem (s : Chars) :
    sanitizeChars (sanitizeChars s) = sanitizeChars s := by
  simp only [sanitizeChars_eq_map, List.map_map]
  refine List.map_congr_left (fun c _ => ?_)
  simp only [Function.comp_apply]
  by_cases h : c = ' ' ∨ c = '.'
  · rw [if_pos h, if_neg (by decide)]
  · rw [if_neg h, if_neg h]

theorem sanitizeChars_length (s : Chars) :
    (sanitizeChars s).length = s.length := by
  rw [sanitizeChars_eq_map, List.length_map]

/-! ### `rfindChar` specification -/

theorem rfindChar_eq_none {c : Char} {s : Chars} :
    rfindChar c s = none ↔ c ∉ s := by
  induction s with
  | nil => simp [rfindChar]
  | cons x xs ih =>
    simp only [rfindChar, List.mem_cons]
    cases h : rfindChar c xs with
    | some i =>
      have hcm : c ∈ xs := by
        by_contra hc
        have hnone := ih.2 hc
        rw [h] at hnone
        exact absurd hnone (by simp)
      simp [hcm]
    | none =>
      have hxs : c ∉ xs := ih.1 h
      by_cases hx : x = c
      · simp [hx]
      · rw [if_neg hx]
        constructor
        · intro _ hor
          rcases hor with rfl | hm
          · exact hx rfl
          · exact hxs hm
        · intro _
          rfl

theorem rfindChar_getElem {c : Char} {s : Chars} {i : Nat}
    (h : rfindChar c s = some i) : s[i]? = some c := by
  induction s generalizing i with
  | nil => simp [rfindChar] at h
  | cons x xs ih =>
    simp only [rfindChar] at h
    cases hr : rfindChar c xs with
    | some k =>
      simp only [hr] at h
      cases h
      simpa using ih hr
    | none =>
      simp only [hr] at h
      by_cases hx : x = c
      · rw [if_pos hx] at h
        cases h
        simp [hx]
      · rw [if_neg hx] at h
        exact absurd h (by simp)

theorem rfindChar_lt_length {c : Char} {s : Chars} {i : Nat}
    (h : rfindChar c s = some i) : i < s.length := by
  have := rfindChar_getElem h
  exact (List.getElem?_eq_some_iff.1 this).1

theorem rfindChar_last {c : Char} {s : Chars} {i : Nat}
    (h : rfindChar c s = some i) : ∀ j, i < j → s[j]? ≠ some c := by
  induction s generalizing i with
  | nil => simp [rfindChar] at h
  | cons x xs ih =>
    intro j hj
    simp only [rfindChar] at h
    cases hr : rfindChar c xs with
    | some k =>
      simp only [hr] at h
      cases h
      obtain ⟨j', rfl⟩ : ∃ j', j = j' + 1 := ⟨j - 1, by omega⟩
      simpa using ih hr j' (by omega)
    | none =>
      simp only [hr] at h
      by_cases hx : x = c
      · rw [if_pos hx] at h
        cases h
        obtain ⟨j', rfl⟩ : ∃ j', j = j' + 1 := ⟨j - 1, by omega⟩
        have hnm : c ∉ xs := rfindChar_eq_none.1 hr
        simp only [List.getElem?_cons_succ]
        intro hget
        exact hnm (List.getElem?_mem hget)
      · rw [if_neg hx] at h
        exact absurd h (by simp)

theorem rfindChar_append_some {c : Char} {ys : Chars} {i : Nat} (xs : Chars)
    (h : rfindChar c ys = some i) :
    rfindChar c (xs ++ ys) = some (xs.length + i) := by
  induction xs with
  | nil => simpa using h
  | cons x xs ih =>
    rw [List.cons_append, rfindChar, ih]
    show some (xs.length + i + 1) = some ((x :: xs).length + i)
    simp only [List.length_cons, Option.some.injEq]
    omega

theorem rfindChar_append_none {c : Char} {ys : Chars} (xs : Chars)
    (h : rfindChar c ys = none) :
    rfindChar c (xs ++ ys) = rfindChar c xs := by
  induction xs with
  | nil => simpa using h
  | cons x xs ih =>
    rw [List.cons_append, rfindChar, ih, rfindChar]

theorem rfindChar_take {c : Char} {p : Chars} {n i : Nat}
    (h : rfindChar c p = some i) (hin : i < n) :
    rfindChar c (p.take n) = some i := by
  induction p generalizing n i with
  | nil => simp [rfindChar] at h
  | cons x xs ih =>
    obtain ⟨m, rfl⟩ : ∃ m, n = m + 1 := ⟨n - 1, by omega⟩
    simp only [List.take_succ_cons, rfindChar]
    simp only [rfindChar] at h
    cases hr : rfindChar c xs with
    | some k =>
      simp only [hr] at h
      cases h
      rw [ih hr (by omega)]
    | none =>
      simp only [hr] at h
      by_cases hx : x = c
      · rw [if_pos hx] at h
        cases h
        have hnt : c ∉ xs.take m :=
          fun hm => (rfindChar_eq_none.1 hr) (List.mem_of_mem_take hm)
        rw [rfindChar_eq_none.2 hnt]
        simp [hx]
      · rw [if_neg hx] at h
        exact absurd h (by simp)

theorem rfindChar_take_none {c : Char} {p : Chars} {n : Nat}
    (h : rfindChar c p = none) : rfindChar c (p.take n) = none :=
  rfindChar_eq_none.2 fun hm => (rfindChar_eq_none.1 h) (List.mem_of_mem_take hm)

/-- `rfindChar` is invariant under character maps that preserve `c` exactly. -/
theorem rfindChar_map {c : Char} {f : Char → Char} (hf : ∀ x, f x = c ↔ x = c)
    (s : Chars) : rfindChar c (s.map f) = rfindChar c s := by
  induction s with
  | nil => rfl
  | cons x xs ih =>
    rw [List.map_cons, rfindChar, ih, rfindChar]
    cases hr : rfindChar c xs with
    | some i => rfl
    | none =>
      show (if f x = c then some 0 else none) = (if x = c then some 0 else none)
      by_cases hx : x = c
      · rw [if_pos ((hf x).2 hx), if_pos hx]
      · rw [if_neg (fun hh => hx ((hf x).1 hh)), if_neg hx]

theorem rfindChar_slash_sanitizeChars (s : Chars) :
    rfindChar '/' (sanitizeChars s) = rfindChar '/' s := by
  rw [sanitizeChars_eq_map]
  refine rfindChar_map (fun x => ?_) s
  by_cases h : x = ' ' ∨ x = '.'
  · rw [if_pos h]
    constructor
    · intro hh
      exact absurd hh (by decide)
    · rintro rfl
      rcases h with h | h <;> exact absurd h (by decide)
  · rw [if_neg h]

/-! ### `splitext` characterizations -/

theorem splitext_of_not_mem {p : Chars} (h : '.' ∉ p) : splitext p = (p, []) := by
  simp only [splitext, rfindChar_eq_none.2 h]

/-- The reconstruction lemma: when `b` is dot-free, `t` is dot- and
slash-free, and the final component of `b` is nonempty, `splitext`
splits `b ++ '.' :: t` back into `(b, '.' :: t)`. -/
theorem splitext_append_ext {b t : Chars}
    (hb : '.' ∉ b) (ht : '.' ∉ t) (hs : '/' ∉ t)
    (hf : fstartOf b < b.length) :
    splitext (b ++ '.' :: t) = (b, '.' :: t) := by
  have hrt : rfindChar '.' ('.' :: t) = some 0 := by
    rw [rfindChar, rfindChar_eq_none.2 ht]
    simp
  have h1 : rfindChar '.' (b ++ '.' :: t) = some b.length := by
    simpa using rfindChar_append_some b hrt
  have hst : rfindChar '/' ('.' :: t) = none := by
    rw [rfindChar_eq_none]
    simp only [List.mem_cons, not_or]
    exact ⟨by decide, hs⟩
  have h2 : rfindChar '/' (b ++ '.' :: t) = rfindChar '/' b :=
    rfindChar_append_none b hst
  have h3 : fstartOf (b ++ '.' :: t) = fstartOf b := by
    simp [fstartOf, h2]
  have hlen : fstartOf b < b.length := hf
  have hguard : (List.range b.length).any
      (fun j => decide (fstartOf (b ++ '.' :: t) ≤ j) &&
        ((b ++ '.' :: t).getD j '.' != '.')) = true := by
    rw [List.any_eq_true]
    refine ⟨fstartOf b, List.mem_range.2 hlen, ?_⟩
    rw [h3]
    simp only [Bool.and_eq_true, decide_eq_true_eq, bne_iff_ne]
    refine ⟨le_refl _, ?_⟩
    rw [List.getD_eq_getElem?_getD, List.getElem?_append_left hlen,
      List.getElem?_eq_getElem hlen]
    intro hcon
    exact hb (hcon ▸ List.getElem_mem hlen)
  simp only [splitext, h1, hguard, if_true]
  rw [List.take_left, List.drop_left]

/-! ### Idempotence of the sanitizer -/

theorem sanitize_of_no_split {p : Chars} (h : splitext p = (p, [])) :
    sanitize p = sanitizeChars p := by
  simp [sanitize, h]

theorem sanitize_idem (p : Chars) : sanitize (sanitize p) = sanitize p := by
  rcases hd : rfindChar '.' p with _ | d
  · -- no dot at all: everything is mapped, and the image is dot-free
    have hsp : splitext p = (p, []) := by simp only [splitext, hd]
    rw [sanitize_of_no_split hsp]
    have hnd : '.' ∉ sanitizeChars p := dot_not_mem_sanitizeChars p
    rw [sanitize_of_no_split (splitext_of_not_mem hnd), sanitizeChars_idem]
  · by_cases hg : (List.range d).any
        (fun j => decide (fstartOf p ≤ j) && (p.getD j '.' != '.')) = true
    · -- the split case
      have hsp : splitext p = (p.take d, p.drop d) := by
        simp only [splitext, hd, hg, if_true]
      have hdlt : d < p.length := rfindChar_lt_length hd
      have hdrop : p.drop d = '.' :: p.drop (d + 1) := by
        rw [List.drop_eq_getElem_cons hdlt]
        have := rfindChar_getElem hd
        rw [List.getElem?_eq_getElem hdlt] at this
        rw [Option.some_inj.1 this]
      -- the guard produces a witness j with fstartOf p ≤ j < d
      obtain ⟨j0, hj0r, hj0⟩ := List.any_eq_true.1 hg
      have hj0d : j0 < d := List.mem_range.1 hj0r
      have hj0f : fstartOf p ≤ j0 := by
        simp only [Bool.and_eq_true, decide_eq_true_eq] at hj0
        exact hj0.1
      set b := sanitizeChars (p.take d) with hbdef
      set t := p.drop (d + 1) with htdef
      have hbl : b.length = d := by
        rw [hbdef, sanitizeChars_length, List.length_take]
        omega
      have hsan : sanitize p = b ++ '.' :: t := by
        rw [sanitize, hsp, hdrop]
      -- no dot after position d in p
      have hlast := rfindChar_last hd
      have ht : '.' ∉ t := by
        intro hm
        obtain ⟨k, hk, hkeq⟩ := List.getElem_of_mem hm
        have : p[d + 1 + k]? = some '.' := by
          have := List.getElem?_drop p (d + 1) k
          rw [htdef] at hk
          rw [← this, List.getElem?_eq_getElem hk, hkeq]
        exact hlast (d + 1 + k) (by omega) this
      -- no slash after position d in p
      have hs : '/' ∉ t := by
        intro hm
        obtain ⟨k, hk, hkeq⟩ := List.getElem_of_mem hm
        have hget : p[d + 1 + k]? = some '/' := by
          have := List.getElem?_drop p (d + 1) k
          rw [htdef] at hk
          rw [← this, List.getElem?_eq_getElem hk, hkeq]
        rcases hsl : rfindChar '/' p with _ | i
        · exact (rfindChar_eq_none.1 hsl) (List.getElem?_mem hget)
        · have hfs : fstartOf p = i + 1 := by simp [fstartOf, hsl]
          have : i < d := by omega
          exact rfindChar_last hsl (d + 1 + k) (by omega) hget
      have hbnd : '.' ∉ b := dot_not_mem_sanitizeChars _
      -- the final component of b is nonempty
      have hbf : fstartOf b < b.length := by
        have hslb : rfindChar '/' b = rfindChar '/' (p.take d) :=
          rfindChar_slash_sanitizeChars _
        rcases hsl : rfindChar '/' p with _ | i
        · have : rfindChar '/' (p.take d) = none := rfindChar_take_none hsl
          rw [hbl]
          simp [fstartOf, hslb, this]
          omega
        · have hfs : fstartOf p = i + 1 := by simp [fstartOf, hsl]
          have hid : i < d := by omega
          have : rfindChar '/' (p.take d) = some i := rfindChar_take hsl hid
          rw [hbl]
          simp [fstartOf, hslb, this]
          omega
      have hres := splitext_append_ext hbnd ht hs hbf
      rw [hsan, sanitize, hres]
      simp only
      rw [hbdef, sanitizeChars_idem]
    · -- dot present but the guard fails: no split happens
      have hsp : splitext p = (p, []) := by
        simp only [splitext, hd]
        rw [if_neg hg]
      rw [sanitize_of_no_split hsp]
      have hnd : '.' ∉ sanitizeChars p := dot_not_mem_sanitizeChars p
      rw [sanitize_of_no_split (splitext_of_not_mem hnd), sanitizeChars_idem]

/-! ### The spec's words for the sanitizer (used to compare against the code's)

The claim describes the sanitizer as: replace every space and every non-final
dot by `_`, leaving the substring from the last `.` onward unchanged.  This is
a split at the last dot of the whole string, with no path-separator or
leading-dot provisions. -/

/-- Modelled from the claim's words: split at the last `.` of the whole input
and keep everything from that dot onward unchanged. -/
def lastDotSpecSanitize (s : Chars) : Chars :=
  match rfindChar '.' s with
  | none => sanitizeChars s
  | some d => sanitizeChars (s.take d) ++ s.drop d

/-- The condition under which CPython's `splitext` actually splits at the last
dot: either there is no dot, or some non-dot character lies between the start
of the final path component and the last dot. -/
def extSplitOkB (s : Chars) : Bool :=
  match rfindChar '.' s with
  | none => true
  | some d => (List.range d).any (fun j => decide (fstartOf s ≤ j) && (s.getD j '.' != '.'))

/-! ### Diff engine (`_scan_and_upload` step 3)

    to_upload = []
    skipped_count = 0
    for full_path, r2_key in local_files:
        if r2_key in existing_keys: skipped_count += 1
        else: to_upload.append((full_path, r2_key))
-/

/-- The scan-and-diff loop over the local inventory against the remote key
set: returns `(to_upload, skipped_count)`. -/
def scanDiff {α : Type} (localFiles : List (α × Chars)) (existingKeys : List Chars) :
    List (α × Chars) × Nat :=
  localFiles.foldl
    (fun acc pk =>
      if pk.2 ∈ existingKeys then (acc.1, acc.2 + 1) else (acc.1 ++ [pk], acc.2))
    ([], 0)

theorem scanDiff_go {α : Type} (localFiles : List (α × Chars))
    (existingKeys : List Chars) (acc : List (α × Chars) × Nat) :
    localFiles.foldl
      (fun acc pk =>
        if pk.2 ∈ existingKeys then (acc.1, acc.2 + 1) else (acc.1 ++ [pk], acc.2))
      acc =
    (acc.1 ++ localFiles.filter (fun pk => decide (pk.2 ∉ existingKeys)),
     acc.2 + (localFiles.filter (fun pk => decide (pk.2 ∈ existingKeys))).length) := by
  induction localFiles generalizing acc with
  | nil => simp
  | cons pk rest ih =>
    rw [List.foldl_cons, ih]
    by_cases h : pk.2 ∈ existingKeys
    · simp [h, List.filter_cons]
      omega
    · simp [h, List.filter_cons]

theorem scanDiff_fst {α : Type} (L : List (α × Chars)) (R : List Chars) :
    (scanDiff L R).1 = L.filter (fun pk => decide (pk.2 ∉ R)) := by
  rw [scanDiff, scanDiff_go]
  simp

theorem scanDiff_snd {α : Type} (L : List (α × Chars)) (R : List Chars) :
    (scanDiff L R).2 = (L.filter (fun pk => decide (pk.2 ∈ R))).length := by
  rw [scanDiff, scanDiff_go]
  simp

theorem scanDiff_total {α : Type} (L : List (α × Chars)) (R : List Chars) :
    (scanDiff L R).2 + (scanDiff L R).1.length = L.length := by
  rw [scanDiff_fst, scanDiff_snd]
  induction L with
  | nil => rfl
  | cons pk rest ih =>
    by_cases h : pk.2 ∈ R
    · rw [List.filter_cons_of_pos (by simpa using h),
        List.filter_cons_of_neg (by simpa using h)]
      simp only [List.length_cons]
      omega
    · rw [List.filter_cons_of_neg (by simpa using h),
        List.filter_cons_of_pos (by simpa using h)]
      simp only [List.length_cons]
      omega

/-! ### Paths, `os.path.relpath` and key derivation

A local absolute path is modelled as a drive (empty on POSIX) plus a list of
components, assumed already normalized (as produced by `os.walk` on an
absolute root).  `os.path.relpath(path, start)` computes the component-wise
common prefix and prepends one `..` per remaining `start` component; on
Windows (`ntpath`) it raises `ValueError` when the two drives differ, which is
the only situation in which the code's `except ValueError` fallback to the
bare filename fires. -/

abbrev Comp := List Char

structure AbsPath where
  drive : Chars
  comps : List Comp
deriving DecidableEq

/-- Length of the component-wise common prefix (`genericpath.commonprefix`). -/
def commonLen : List Comp → List Comp → Nat
  | a :: as, b :: bs => if a = b then commonLen as bs + 1 else 0
  | _, _ => 0

/-- The `['..'] * (len(start_list)-i) + path_list[i:]` relative component
list, with the empty case mapped to `[os.curdir]`. -/
def relList (startC pathC : List Comp) : List Comp :=
  if List.replicate (startC.length - commonLen startC pathC) ('.' :: ['.']) ++
      pathC.drop (commonLen startC pathC) = [] then [['.']]
  else
    List.replicate (startC.length - commonLen startC pathC) ('.' :: ['.']) ++
      pathC.drop (commonLen startC pathC)

/-- `os.path.relpath(path, start)`: `none` models the `ValueError` raised on a
drive mismatch (`ntpath`; the only way the code's fallback fires). -/
def relpath (path start : AbsPath) : Option (List Comp) :=
  if path.drive = start.drive then some (relList start.comps path.comps)
  else none

/-- `'/'.join` of components (the `rel_path.replace(os.path.sep, '/')` view). -/
def joinSlash (cs : List Comp) : Chars :=
  List.intercalate ['/'] cs

/-- `os.path.basename` on a component list. -/
def basename (comps : List Comp) : Comp :=
  comps.getLastD []

/-- `file.startswith('.')`. -/
def startsWithDot (f : Comp) : Bool :=
  match f with
  | '.' :: _ => true
  | _ => false

/-- `file_path.endswith('.tmp')` (a path never ends in a separator, so this is
a condition on its last component). -/
def endsWithTmp (f : Comp) : Bool :=
  [ '.', 't', 'm', 'p' ].isSuffixOf f

/-- Remote key computed by the scanner for one walked file
(`_scan_and_upload`, the `try: relpath / except ValueError: file` block
followed by the splitext-based sanitization). -/
def scanKey (fullPath watchRoot : AbsPath) : Chars :=
  match relpath fullPath watchRoot with
  | some comps => sanitize (joinSlash comps)
  | none => sanitize (basename fullPath.comps)

/-- The key `queue_upload` sanitizes: the supplied one if any, otherwise the
slash-joined relative path, falling back to the bare filename on
`ValueError`. -/
def rawKey (fullPath watchRoot : AbsPath) (suppliedKey : Option Chars) : Chars :=
  match suppliedKey with
  | some k => k
  | none =>
    match relpath fullPath watchRoot with
    | some comps => joinSlash comps
    | none => basename fullPath.comps

/-- `queue_upload(file_path, watch_root, r2_key)`: returns the `r2_key` of the
enqueued item, or `none` when the file is silently dropped by the exclusion
rules.  The sanitization step applies to the key in all cases, supplied or
derived. -/
def queue_upload (fullPath watchRoot : AbsPath) (suppliedKey : Option Chars) :
    Option Chars :=
  if endsWithTmp (basename fullPath.comps) || startsWithDot (basename fullPath.comps)
  then none
  else some (sanitize (rawKey fullPath watchRoot suppliedKey))

theorem commonLen_of_self_append (as bs : List Comp) :
    commonLen as (as ++ bs) = as.length := by
  induction as with
  | nil => cases bs <;> rfl
  | cons a as ih => simp [commonLen, ih]

/-! ### Stats and `get_stats`

Counters are `Nat`; wall-clock values are `ℚ` (Python floats carry exact
small rationals in every scenario of interest).  `checkedDiv` records a
division fault as `none`, so "never divides by zero" becomes "`get_stats` is
always `some`". -/

structure Stats where
  total : Nat
  uploaded : Nat
  skipped : Nat
  failed : Nat
  bytesUploaded : Nat
  startTime : ℚ
deriving DecidableEq

def initStats : Stats := ⟨0, 0, 0, 0, 0, 0⟩

structure Snapshot where
  done : Nat
  speed : ℚ
  elapsed : ℚ
  eta : ℚ
  isPaused : Bool
deriving DecidableEq

/-- Division recording a division-by-zero fault as `none`. -/
def checkedDiv (a b : ℚ) : Option ℚ :=
  if b = 0 then none else some (a / b)

/-- `elapsed = time.time() - start_time if start_time > 0 else 0`. -/
def elapsedOf (st : Stats) (now : ℚ) : ℚ :=
  if 0 < st.startTime then now - st.startTime else 0

/-- `speed = bytes_uploaded / elapsed if elapsed > 0 and not is_paused else 0`. -/
def speedOf (st : Stats) (now : ℚ) (isPaused : Bool) : Option ℚ :=
  if 0 < elapsedOf st now ∧ isPaused = false then
    checkedDiv (st.bytesUploaded : ℚ) (elapsedOf st now)
  else some 0

/-- `eta = remaining * (elapsed / done) if done > 0 else 0`, where
`remaining = total - done - failed` is signed in Python. -/
def etaOf (st : Stats) (now : ℚ) : Option ℚ :=
  if 0 < st.uploaded + st.skipped then
    (checkedDiv (elapsedOf st now) ((st.uploaded + st.skipped : Nat) : ℚ)).map
      (fun q => ((st.total : ℚ) - ((st.uploaded + st.skipped : Nat) : ℚ) -
        (st.failed : ℚ)) * q)
  else some 0

/-- `get_stats`: the snapshot, or `none` if any division faulted. -/
def get_stats (st : Stats) (now : ℚ) (isPaused : Bool) : Option Snapshot :=
  match speedOf st now isPaused, etaOf st now with
  | some sp, some eta =>
      some ⟨st.uploaded + st.skipped, sp, elapsedOf st now, eta, isPaused⟩
  | _, _ => none

/-! ### Per-item status strings (`UploadStatus`) -/

namespace UploadStatus

def PENDING : Chars := "Pending".toList

def UPLOADING : Chars := "⬆️ Uploading".toList

def COMPLETED : Chars := "✅ Completed".toList

def FAILED : Chars := "❌ Failed".toList

def SKIPPED : Chars := "⏭️ Skipped".toList

end UploadStatus

/-! ### The worker body `_do_upload`

The filesystem and the transport are the worker's environment: whether the
local file still exists, its size, and whether `upload_file` succeeds or
raises. -/

inductive TransportResult
  | success
  | error (msg : Chars)
deriving DecidableEq

structure UploadEnv where
  fileExists : Bool
  fileSize : Nat
  transport : TransportResult
deriving DecidableEq

structure UploadReport where
  status : Chars
  errorMsg : Option Chars
  uploadAttempted : Bool
deriving DecidableEq

/-- `_do_upload`: missing file ⇒ `failed += 1`, status Failed, error
`'File not found'`, no upload call; success ⇒ `uploaded += 1`,
`bytes_uploaded += size`, status Completed; raised transport error ⇒
`failed += 1`, status Failed, truncated message (`str(e)[:50]`). -/
def do_upload (env : UploadEnv) (st : Stats) : Stats × UploadReport :=
  if env.fileExists = false then
    ({ st with failed := st.failed + 1 },
     ⟨UploadStatus.FAILED, some ("File not found".toList), false⟩)
  else
    match env.transport with
    | .success =>
        ({ st with uploaded := st.uploaded + 1,
                   bytesUploaded := st.bytesUploaded + env.fileSize },
         ⟨UploadStatus.COMPLETED, none, true⟩)
    | .error m =>
        ({ st with failed := st.failed + 1 },
         ⟨UploadStatus.FAILED, some (m.take 50), true⟩)

/-! ### The engine as a labelled transition system

State: the `R2Core` fields relevant to lifecycle, queue, in-flight futures
and stats.  Steps are the atomic actions of the source: the lifecycle
methods, one scan-and-diff pass, a watcher enqueue, and the three phases of
the dispatch loop (reap done futures / claim an item under the pause gate and
the concurrency cap / a worker run finishing).  An `Active` entry is a
submitted future; it leaves `active` only when the dispatch loop reaps it. -/

structure Item where
  filePath : AbsPath
  key : Chars
deriving DecidableEq

inductive Phase
  | uploading
  | doneOk
  | doneFailed
deriving DecidableEq

def Phase.isUp : Phase → Bool
  | .uploading => true
  | _ => false

structure Active where
  item : Item
  phase : Phase
deriving DecidableEq

/-- `self.max_workers = 8`. -/
def maxWorkers : Nat := 8

structure EngineState where
  isRunning : Bool
  isPaused : Bool
  pauseEventSet : Bool
  queue : List Item
  active : List Active
  stats : Stats
deriving DecidableEq

/-- `R2Core.__init__`: not running, not paused, `pause_event.set()`. -/
def initState : EngineState := ⟨false, false, true, [], [], initStats⟩

/-- `start()`. -/
def startFn (s : EngineState) : EngineState := { s with isRunning := true }

/-- `resume()`: `is_paused = False; pause_event.set()`. -/
def resumeFn (s : EngineState) : EngineState :=
  { s with isPaused := false, pauseEventSet := true }

/-- `pause()`: `is_paused = True; pause_event.clear()`. -/
def pauseFn (s : EngineState) : EngineState :=
  { s with isPaused := true, pauseEventSet := false }

/-- `stop()`: `is_running = False` then `self.resume()`. -/
def stopFn (s : EngineState) : EngineState :=
  resumeFn { s with isRunning := false }

/-- Terminal phase of a worker run in environment `env`. -/
def phaseOf (env : UploadEnv) : Phase :=
  if env.fileExists = false then .doneFailed
  else
    match env.transport with
    | .success => .doneOk
    | .error _ => .doneFailed

/-- One `_scan_and_upload` pass over local inventory `L` and remote keys `R`:
`reset_stats`, set `total`/`skipped` from the diff, enqueue the `to_upload`
entries through `queue_upload` (which re-sanitizes each supplied key). -/
def scanFn (t : ℚ) (root : AbsPath) (L : List (AbsPath × Chars)) (R : List Chars)
    (s : EngineState) : EngineState :=
  { s with
    stats := ⟨L.length, 0, (scanDiff L R).2, 0, 0, t⟩,
    queue := s.queue ++ (scanDiff L R).1.filterMap
      (fun pk => (queue_upload pk.1 root (some pk.2)).map (fun k => Item.mk pk.1 k)) }

/-- A watcher `on_created` enqueue: appends the item, touches no stats. -/
def watchFn (fp : AbsPath) (k : Chars) (s : EngineState) : EngineState :=
  { s with queue := s.queue ++ [⟨fp, k⟩] }

/-- The dispatch loop claims the queue head and submits it. -/
def claimFn (it : Item) (rest : List Item) (s : EngineState) : EngineState :=
  { s with queue := rest, active := s.active ++ [⟨it, .uploading⟩] }

/-- The dispatch loop reaps done futures. -/
def reapFn (s : EngineState) : EngineState :=
  { s with active := s.active.filter (fun a => a.phase.isUp) }

/-- A worker run finishing: the future's item reaches its terminal phase and
the stats take the `_do_upload` update. -/
def finishFn (l r : List Active) (it : Item) (env : UploadEnv)
    (s : EngineState) : EngineState :=
  { s with active := l ++ Active.mk it (phaseOf env) :: r,
           stats := (do_upload env s.stats).1 }

inductive Lab
  | start
  | stop
  | pause
  | resume
  | scan
  | watch
  | claim
  | reap
  | finish
deriving DecidableEq

inductive Step : Lab → EngineState → EngineState → Prop
  | start (s : EngineState) (h : s.isRunning = false) : Step .start s (startFn s)
  | stop (s : EngineState) : Step .stop s (stopFn s)
  | pause (s : EngineState) : Step .pause s (pauseFn s)
  | resume (s : EngineState) : Step .resume s (resumeFn s)
  | scan (s : EngineState) (t : ℚ) (root : AbsPath) (L : List (AbsPath × Chars))
      (R : List Chars) : Step .scan s (scanFn t root L R s)
  | watch (s : EngineState) (fp root : AbsPath) (k : Chars)
      (h : queue_upload fp root none = some k) : Step .watch s (watchFn fp k s)
  | claim (s : EngineState) (it : Item) (rest : List Item)
      (hq : s.queue = it :: rest) (hrun : s.isRunning = true)
      (hgate : s.pauseEventSet = true) (hcap : s.active.length < maxWorkers) :
      Step .claim s (claimFn it rest s)
  | reap (s : EngineState) (h : s.isRunning = true) : Step .reap s (reapFn s)
  | finish (s : EngineState) (l r : List Active) (it : Item) (env : UploadEnv)
      (h : s.active = l ++ Active.mk it .uploading :: r) :
      Step .finish s (finishFn l r it env s)

/-- Any engine step. -/
abbrev AnyStep (a b : EngineState) : Prop := ∃ l, Step l a b

/-- Reachability through engine steps. -/
abbrev Reach : EngineState → EngineState → Prop := Relation.ReflTransGen AnyStep

/-- Steps of a single scan generation: no watcher enqueues and no further
scan passes. -/
abbrev ScanOnlyStep (a b : EngineState) : Prop :=
  ∃ l, Step l a b ∧ l ≠ Lab.watch ∧ l ≠ Lab.scan

/-- Reachability without watcher enqueues or further scans. -/
abbrev ReachSO : EngineState → EngineState → Prop := Relation.ReflTransGen ScanOnlyStep

/-- Number of in-flight (Uploading) entries. -/
def upCount (acts : List Active) : Nat := acts.countP (fun a => a.phase.isUp)

/-! ### Helper lemmas about the engine -/

theorem phaseOf_not_up (env : UploadEnv) : (phaseOf env).isUp = false := by
  unfold phaseOf
  by_cases h : env.fileExists = false
  · rw [if_pos h]
    rfl
  · rw [if_neg h]
    cases env.transport <;> rfl

theorem upCount_append (xs ys : List Active) :
    upCount (xs ++ ys) = upCount xs + upCount ys := by
  unfold upCount
  rw [List.countP_append]

theorem upCount_cons_up (x : Active) (xs : List Active) (h : x.phase.isUp = true) :
    upCount (x :: xs) = upCount xs + 1 := by
  unfold upCount
  exact List.countP_cons_of_pos _ _ h

theorem upCount_cons_not (x : Active) (xs : List Active) (h : x.phase.isUp = false) :
    upCount (x :: xs) = upCount xs := by
  unfold upCount
  exact List.countP_cons_of_neg _ _ (by simp [h])

theorem upCount_reap (xs : List Active) :
    upCount (xs.filter (fun a => a.phase.isUp)) = upCount xs := by
  unfold upCount
  rw [List.countP_filter]
  exact List.countP_congr (fun a _ => by simp)

theorem upCount_le_length (xs : List Active) : upCount xs ≤ xs.length := by
  unfold upCount
  exact List.countP_le_length _

theorem step_active_length {lab : Lab} {s s' : EngineState} (h : Step lab s s')
    (hle : s.active.length ≤ maxWorkers) : s'.active.length ≤ maxWorkers := by
  cases h with
  | start s h => exact hle
  | stop s => exact hle
  | pause s => exact hle
  | resume s => exact hle
  | scan s t root L R => exact hle
  | watch s fp root k h => exact hle
  | claim s it rest hq hrun hgate hcap =>
    show (s.active ++ [Active.mk it Phase.uploading]).length ≤ maxWorkers
    rw [List.length_append]
    simp only [List.length_singleton]
    omega
  | reap s h =>
    show (s.active.filter _).length ≤ maxWorkers
    exact le_trans (List.length_filter_le _ _) hle
  | finish s l r it env hact =>
    show (l ++ Active.mk it (phaseOf env) :: r).length ≤ maxWorkers
    rw [hact] at hle
    simpa using hle

theorem reach_active_length {s : EngineState} (h : Reach initState s) :
    s.active.length ≤ maxWorkers := by
  induction h with
  | refl => decide
  | tail _hpre hstep ih =>
    obtain ⟨lab, hlab⟩ := hstep
    exact step_active_length hlab ih

/-- The single-scan-generation stats invariant: completed, skipped and failed
counters plus everything still queued or in flight never exceed `total`. -/
def J (s : EngineState) : Prop :=
  s.stats.uploaded + s.stats.skipped + s.stats.failed + s.queue.length +
    upCount s.active ≤ s.stats.total

theorem J_scan (s₀ : EngineState) (hq : s₀.queue = []) (ha : upCount s₀.active = 0)
    (t : ℚ) (root : AbsPath) (L : List (AbsPath × Chars)) (R : List Chars) :
    J (scanFn t root L R s₀) := by
  unfold J
  simp only [scanFn]
  rw [hq, List.nil_append, ha]
  have h1 := scanDiff_total L R
  have h2 := List.length_filterMap_le
    (fun pk : AbsPath × Chars =>
      (queue_upload pk.1 root (some pk.2)).map (fun k => Item.mk pk.1 k))
    (scanDiff L R).1
  omega

/-- `_do_upload` updates: `total` and `skipped` are untouched and exactly one
of `uploaded`, `failed` is incremented. -/
theorem do_upload_stats (env : UploadEnv) (st : Stats) :
    (do_upload env st).1.total = st.total ∧
    (do_upload env st).1.skipped = st.skipped ∧
    (do_upload env st).1.uploaded + (do_upload env st).1.failed =
      st.uploaded + st.failed + 1 := by
  unfold do_upload
  by_cases hf : env.fileExists = false
  · rw [if_pos hf]
    refine ⟨rfl, rfl, ?_⟩
    show st.uploaded + (st.failed + 1) = st.uploaded + st.failed + 1
    omega
  · rw [if_neg hf]
    cases env.transport with
    | success =>
      refine ⟨rfl, rfl, ?_⟩
      show st.uploaded + 1 + st.failed = st.uploaded + st.failed + 1
      omega
    | error m =>
      refine ⟨rfl, rfl, ?_⟩
      show st.uploaded + (st.failed + 1) = st.uploaded + st.failed + 1
      omega

theorem J_step {a b : EngineState} (h : ScanOnlyStep a b) (hJ : J a) : J b := by
  obtain ⟨lab, hstep, hw, hsc⟩ := h
  cases hstep with
  | start s h => exact hJ
  | stop s => exact hJ
  | pause s => exact hJ
  | resume s => exact hJ
  | scan s t root L R => exact absurd rfl hsc
  | watch s fp root k h => exact absurd rfl hw
  | claim s it rest hq hrun hgate hcap =>
    unfold J at hJ ⊢
    rw [hq] at hJ
    show a.stats.uploaded + a.stats.skipped + a.stats.failed + rest.length +
      upCount (a.active ++ [Active.mk it Phase.uploading]) ≤ a.stats.total
    rw [upCount_append, show upCount [Active.mk it Phase.uploading] = 1 from rfl]
    simp only [List.length_cons] at hJ
    omega
  | reap s h =>
    unfold J at hJ ⊢
    show a.stats.uploaded + a.stats.skipped + a.stats.failed + a.queue.length +
      upCount (a.active.filter (fun x => x.phase.isUp)) ≤ a.stats.total
    rw [upCount_reap]
    exact hJ
  | finish s l r it env hact =>
    have hd := do_upload_stats env a.stats
    unfold J at hJ ⊢
    rw [hact, upCount_append,
      upCount_cons_up (Active.mk it Phase.uploading) r rfl] at hJ
    show (do_upload env a.stats).1.uploaded + (do_upload env a.stats).1.skipped +
      (do_upload env a.stats).1.failed + a.queue.length +
      upCount (l ++ Active.mk it (phaseOf env) :: r) ≤ (do_upload env a.stats).1.total
    rw [upCount_append, upCount_cons_not (Active.mk it (phaseOf env)) r (phaseOf_not_up env)]
    omega

theorem reachSO_J {a b : EngineState} (hJ : J a) (h : ReachSO a b) : J b := by
  induction h with
  | refl => exact hJ
  | tail _hpre hstep ih => exact J_step hstep ih

/-! ### Helper lemmas about `get_stats` -/

theorem speedOf_some (st : Stats) (now : ℚ) (p : Bool) :
    ∃ v, speedOf st now p = some v ∧ 0 ≤ v := by
  unfold speedOf
  by_cases h : 0 < elapsedOf st now ∧ p = false
  · rw [if_pos h]
    unfold checkedDiv
    rw [if_neg (ne_of_gt h.1)]
    exact ⟨_, rfl, div_nonneg (Nat.cast_nonneg _) (le_of_lt h.1)⟩
  · rw [if_neg h]
    exact ⟨0, rfl, le_refl 0⟩

theorem etaOf_some (st : Stats) (now : ℚ) :
    ∃ v, etaOf st now = some v := by
  unfold etaOf
  by_cases h : 0 < st.uploaded + st.skipped
  · rw [if_pos h]
    unfold checkedDiv
    have hne : ((st.uploaded + st.skipped : Nat) : ℚ) ≠ 0 := by
      exact_mod_cast Nat.pos_iff_ne_zero.1 h
    rw [if_neg hne]
    exact ⟨_, rfl⟩
  · rw [if_neg h]
    exact ⟨0, rfl⟩

theorem etaOf_nonneg {st : Stats} {now : ℚ} {v : ℚ}
    (hle : st.uploaded + st.skipped + st.failed ≤ st.total)
    (hnow : st.startTime ≤ now) (h : etaOf st now = some v) : 0 ≤ v := by
  unfold etaOf at h
  by_cases hd : 0 < st.uploaded + st.skipped
  · rw [if_pos hd] at h
    unfold checkedDiv at h
    have hne : ((st.uploaded + st.skipped : Nat) : ℚ) ≠ 0 := by
      exact_mod_cast Nat.pos_iff_ne_zero.1 hd
    rw [if_neg hne] at h
    simp only [Option.map, Option.some_inj] at h
    rw [← h]
    have hrem : (0 : ℚ) ≤ (st.total : ℚ) - ((st.uploaded + st.skipped : Nat) : ℚ) -
        (st.failed : ℚ) := by
      have : ((st.uploaded + st.skipped + st.failed : Nat) : ℚ) ≤ (st.total : ℚ) := by
        exact_mod_cast hle
      push_cast at this ⊢
      linarith
    have hel : (0 : ℚ) ≤ elapsedOf st now := by
      unfold elapsedOf
      by_cases hs : 0 < st.startTime
      · rw [if_pos hs]
        linarith
      · rw [if_neg hs]
    have hcast : (0 : ℚ) ≤ ((st.uploaded + st.skipped : Nat) : ℚ) := Nat.cast_nonneg _
    exact mul_nonneg hrem (div_nonneg hel hcast)
  · rw [if_neg hd] at h
    simp only [Option.some_inj] at h
    rw [← h]

/-! ### Concrete states, items and paths used in counterexamples/witnesses -/

def cexL : List (Chars × Chars) :=
  [("p1".toList, "a_b.mp4".toList), ("p2".toList, "a_b.mp4".toList)]

def cexR : List Chars := ["a_b.mp4".toList]

def pEmpty : AbsPath := ⟨[], []⟩

def pVideo : AbsPath := ⟨[], ["v.mp4".toList]⟩

def itVideo : Item := ⟨pVideo, "v.mp4".toList⟩

def envOk : UploadEnv := ⟨true, 5, TransportResult.success⟩

def envMissing : UploadEnv := ⟨false, 0, TransportResult.success⟩

def c7full : AbsPath := ⟨[], ["a".toList, "b".toList, "c.mp4".toList]⟩

def c7root : AbsPath := ⟨[], ["a".toList, "x".toList]⟩

def w7full : AbsPath := ⟨[], ["a".toList, "v.mp4".toList]⟩

def w7root : AbsPath := ⟨[], ["a".toList]⟩

def w7cross : AbsPath := ⟨"d:".toList, ["v.mp4".toList]⟩

def wClaimState : EngineState := ⟨true, false, true, [itVideo], [], initStats⟩

def wPausedRun : EngineState := pauseFn (startFn initState)

def wUpState : EngineState :=
  ⟨true, true, false, [], [Active.mk itVideo Phase.uploading], initStats⟩

/-! ### Claim theorems -/

/-- C1 (counterexample): two local files whose sanitized keys collide on a
key present remotely are both counted as skipped (`skipped = 2`), whereas the
number of distinct sanitized local keys present remotely is 1, so the claim's
skip count `|L ∩ R|` over post-sanitization sets is wrong. -/
theorem c1_dedup_counterexample :
    (scanDiff cexL cexR).2 = 2 ∧
    ((cexL.map Prod.snd).dedup.filter (fun k => decide (k ∈ cexR))).length = 1 ∧
    (scanDiff cexL cexR).2 ≠
      ((cexL.map Prod.snd).dedup.filter (fun k => decide (k ∈ cexR))).length := by
  refine ⟨by decide, by decide, by decide⟩

/-- C1 (amended): the upload set is exactly the local pairs whose key is not
in the remote set, and the recorded skipped count equals the number of local
inventory entries, counted with multiplicity, whose key is in the remote set
(this agrees with `|L ∩ R|` only when the sanitized keys are distinct). -/
theorem c1_dedup_amended :
    ∀ (α : Type) (L : List (α × Chars)) (R : List Chars),
      (scanDiff L R).1 = L.filter (fun pk => decide (pk.2 ∉ R)) ∧
      (scanDiff L R).2 = (L.filter (fun pk => decide (pk.2 ∈ R))).length :=
  fun _ L R => ⟨scanDiff_fst L R, scanDiff_snd L R⟩

/-- C3: the key sanitizer is idempotent: for every string `s`,
`sanitize (sanitize s) = sanitize s`. -/
theorem c3_sanitize_idempotent : ∀ p : Chars, sanitize (sanitize p) = sanitize p :=
  fun p => sanitize_idem p

/-- C8 (counterexample): on `"dir.v2/file"` the last dot lies in a directory
segment, `splitext` yields no extension, and the code replaces that dot too
(`dir_v2/file`), while the claim's words demand that the substring from the
last `.` onward stay unchanged (`dir.v2/file`). -/
theorem c8_extension_counterexample :
    sanitize ("dir.v2/file".toList) = "dir_v2/file".toList ∧
    lastDotSpecSanitize ("dir.v2/file".toList) = "dir.v2/file".toList ∧
    sanitize ("dir.v2/file".toList) ≠ lastDotSpecSanitize ("dir.v2/file".toList) := by
  refine ⟨by decide, by decide, by decide⟩

/-- C8 (amended): `sanitize "a b.c.mp4" = "a_b_c.mp4"`, and in general the
sanitizer replaces every space and every non-final dot with `_` while keeping
the substring from the last dot onward unchanged, provided the last dot lies
in the final path component after at least one non-dot character (CPython
`splitext` semantics); otherwise every dot, the last included, is replaced. -/
theorem c8_extension_amended :
    sanitize ("a b.c.mp4".toList) = "a_b_c.mp4".toList ∧
    ∀ s : Chars, extSplitOkB s = true → sanitize s = lastDotSpecSanitize s := by
  refine ⟨by decide, ?_⟩
  intro s h
  cases hd : rfindChar '.' s with
  | none =>
    have hsp : splitext s = (s, []) := by simp only [splitext, hd]
    simp only [sanitize, hsp, lastDotSpecSanitize, hd, List.append_nil]
  | some d =>
    have h' : ((List.range d).any
        fun j => decide (fstartOf s ≤ j) && (s.getD j '.' != '.')) = true := by
      have hh := h
      simp only [extSplitOkB, hd] at hh
      exact hh
    have hsp : splitext s = (s.take d, s.drop d) := by
      simp only [splitext, hd, h', if_true]
    simp only [sanitize, hsp, lastDotSpecSanitize, hd]

/-- C8 witness: the amended theorem applied at the spec's own example. -/
theorem c8_extension_witness :
    extSplitOkB ("a b.c.mp4".toList) = true ∧
    sanitize ("a b.c.mp4".toList) = lastDotSpecSanitize ("a b.c.mp4".toList) :=
  ⟨by decide, c8_extension_amended.2 ("a b.c.mp4".toList) (by decide)⟩

/-- C9: every item that reaches the upload queue has a remote key that is a
fixed point of the sanitizer — `queue_upload` re-sanitizes supplied keys. -/
theorem c9_enqueued_sanitized :
    ∀ (fp root : AbsPath) (sk : Option Chars) (k : Chars),
      queue_upload fp root sk = some k → sanitize k = k := by
  intro fp root sk k h
  unfold queue_upload at h
  by_cases hdrop :
      (endsWithTmp (basename fp.comps) || startsWithDot (basename fp.comps)) = true
  · rw [if_pos hdrop] at h
    exact absurd h (by simp)
  · rw [if_neg hdrop] at h
    simp only [Option.some_inj] at h
    rw [← h]
    exact sanitize_idem _

/-- C9 witness: an explicitly supplied unsanitized key is re-sanitized on
enqueue and the enqueued key is a sanitizer fixed point. -/
theorem c9_enqueued_sanitized_witness :
    queue_upload w7full w7root (some ("My Movie.Part1.mp4".toList)) =
      some ("My_Movie_Part1.mp4".toList) ∧
    sanitize ("My_Movie_Part1.mp4".toList) = "My_Movie_Part1.mp4".toList :=
  ⟨by decide,
   c9_enqueued_sanitized w7full w7root (some ("My Movie.Part1.mp4".toList))
     ("My_Movie_Part1.mp4".toList) (by decide)⟩

/-- C10: `stop()` always clears the paused state: it sets `is_paused = False`
and opens the pause gate (it calls `resume()` internally), even when `pause()`
was called earlier and `resume()` never was. -/
theorem c10_stop_clears_pause :
    ∀ s : EngineState, (stopFn s).isPaused = false ∧
      (stopFn s).pauseEventSet = true ∧ (stopFn s).isRunning = false ∧
      stopFn (pauseFn s) = stopFn s :=
  fun _ => ⟨rfl, rfl, rfl, rfl⟩

/-- C5: in every reachable engine state the number of simultaneously
Uploading items never exceeds the configured worker limit, which is 8. -/
theorem c5_concurrency_bound :
    ∀ s : EngineState, Reach initState s →
      upCount s.active ≤ maxWorkers ∧ maxWorkers = 8 := by
  intro s h
  exact ⟨le_trans (upCount_le_length s.active) (reach_active_length h), rfl⟩

/-- C5 witness: the bound instantiated at the initial state. -/
theorem c5_concurrency_bound_witness :
    upCount initState.active ≤ maxWorkers ∧ maxWorkers = 8 :=
  c5_concurrency_bound initState Relation.ReflTransGen.refl

/-- C4: pause safety.  `pause()` closes the gate; the dispatch claim step
requires the gate open; while the gate is closed no step creates a new
Uploading entry and no step other than `resume`/`stop` (the latter calls
`resume()` internally) reopens the gate; an already-Uploading item can still
finish to a terminal phase while paused. -/
theorem c4_pause_safety :
    (∀ s : EngineState,
      (pauseFn s).isPaused = true ∧ (pauseFn s).pauseEventSet = false) ∧
    (∀ s s' : EngineState, Step Lab.claim s s' → s.pauseEventSet = true) ∧
    (∀ (lab : Lab) (s s' : EngineState), Step lab s s' → s.pauseEventSet = false →
      List.Sublist (s'.active.filter (fun x => x.phase.isUp))
        (s.active.filter (fun x => x.phase.isUp))) ∧
    (∀ (lab : Lab) (s s' : EngineState), Step lab s s' → s.pauseEventSet = false →
      lab ≠ Lab.resume → lab ≠ Lab.stop → s'.pauseEventSet = false) ∧
    (∀ (s : EngineState) (l r : List Active) (it : Item),
      s.active = l ++ Active.mk it Phase.uploading :: r →
      ∃ s', Step Lab.finish s s' ∧
        s'.active = l ++ Active.mk it Phase.doneOk :: r) := by
  refine ⟨fun s => ⟨rfl, rfl⟩, ?_, ?_, ?_, ?_⟩
  · intro s s' h
    cases h with
    | claim s it rest hq hrun hgate hcap => exact hgate
  · intro lab s s' h hg
    cases h with
    | start s h => exact List.Sublist.refl _
    | stop s => exact List.Sublist.refl _
    | pause s => exact List.Sublist.refl _
    | resume s => exact List.Sublist.refl _
    | scan s t root L R => exact List.Sublist.refl _
    | watch s fp root k h => exact List.Sublist.refl _
    | claim s it rest hq hrun hgate hcap =>
      rw [hgate] at hg
      exact absurd hg (by decide)
    | reap s h =>
      show List.Sublist ((s.active.filter (fun x => x.phase.isUp)).filter
        (fun x => x.phase.isUp)) (s.active.filter (fun x => x.phase.isUp))
      rw [List.filter_filter]
      have hfe : (fun a : Active => a.phase.isUp && a.phase.isUp) =
          fun a : Active => a.phase.isUp := by
        funext a
        exact Bool.and_self _
      rw [hfe]
    | finish s l r it env hact =>
      have h1 : (Active.mk it (phaseOf env)).phase.isUp = false := phaseOf_not_up env
      have h2 : (Active.mk it Phase.uploading).phase.isUp = true := rfl
      show List.Sublist ((l ++ Active.mk it (phaseOf env) :: r).filter
        (fun x => x.phase.isUp)) (s.active.filter (fun x => x.phase.isUp))
      rw [hact]
      simp only [List.filter_append, List.filter_cons, h1, h2, if_true, if_false]
      exact List.Sublist.append_left (List.sublist_cons_self _ _) _
  · intro lab s s' h hg hr hst
    cases h with
    | start s h => exact hg
    | stop s => exact absurd rfl hst
    | pause s => rfl
    | resume s => exact absurd rfl hr
    | scan s t root L R => exact hg
    | watch s fp root k h => exact hg
    | claim s it rest hq hrun hgate hcap => exact hg
    | reap s h => exact hg
    | finish s l r it env hact => exact hg
  · intro s l r it hact
    exact ⟨finishFn l r it envOk s, Step.finish s l r it envOk hact, rfl⟩

/-- C4 witness: the five parts instantiated at concrete states: a fresh
pause, a concrete gated claim step, a reap step in a paused running engine,
and a paused engine with one in-flight item that still finishes. -/
theorem c4_pause_safety_witness :
    ((pauseFn initState).isPaused = true ∧ (pauseFn initState).pauseEventSet = false) ∧
    wClaimState.pauseEventSet = true ∧
    List.Sublist ((reapFn wPausedRun).active.filter (fun x => x.phase.isUp))
      (wPausedRun.active.filter (fun x => x.phase.isUp)) ∧
    (reapFn wPausedRun).pauseEventSet = false ∧
    (∃ s', Step Lab.finish wUpState s' ∧
      s'.active = [] ++ Active.mk itVideo Phase.doneOk :: []) :=
  ⟨c4_pause_safety.1 initState,
   c4_pause_safety.2.1 wClaimState (claimFn itVideo [] wClaimState)
     (Step.claim wClaimState itVideo [] rfl rfl rfl (by decide)),
   c4_pause_safety.2.2.1 Lab.reap wPausedRun (reapFn wPausedRun)
     (Step.reap wPausedRun rfl) rfl,
   c4_pause_safety.2.2.2.1 Lab.reap wPausedRun (reapFn wPausedRun)
     (Step.reap wPausedRun rfl) rfl (by decide) (by decide),
   c4_pause_safety.2.2.2.2 wUpState [] [] itVideo rfl⟩

/-- C6 (counterexample): the worker's missing-file message is
`'File not found'` (capital F), not the claim's `"file not found"`. -/
theorem c6_file_not_found_counterexample :
    (do_upload envMissing initStats).2.errorMsg = some ("File not found".toList) ∧
    ("File not found".toList : Chars) ≠ "file not found".toList := by
  refine ⟨by decide, by decide⟩

/-- C6 (amended): a dequeued item whose local file no longer exists is marked
Failed with the message `"File not found"`, the failed count grows by exactly
1, no upload call is made, `uploaded`/`bytesUploaded` are unchanged, and the
finishing step never re-enqueues the item (the queue is untouched). -/
theorem c6_file_not_found_amended :
    ∀ (env : UploadEnv) (st : Stats), env.fileExists = false →
      (do_upload env st).2.status = UploadStatus.FAILED ∧
      (do_upload env st).2.errorMsg = some ("File not found".toList) ∧
      (do_upload env st).1.failed = st.failed + 1 ∧
      (do_upload env st).1.uploaded = st.uploaded ∧
      (do_upload env st).1.bytesUploaded = st.bytesUploaded ∧
      (do_upload env st).2.uploadAttempted = false ∧
      (∀ (l r : List Active) (s : EngineState) (it : Item),
        (finishFn l r it env s).queue = s.queue) := by
  intro env st h
  unfold do_upload
  rw [if_pos h]
  exact ⟨rfl, rfl, rfl, rfl, rfl, rfl, fun l r s it => rfl⟩

/-- C6 witness: the amended theorem applied to a vanished file on fresh
stats. -/
theorem c6_file_not_found_witness :
    (do_upload envMissing initStats).2.status = UploadStatus.FAILED ∧
    (do_upload envMissing initStats).2.errorMsg = some ("File not found".toList) ∧
    (do_upload envMissing initStats).1.failed = initStats.failed + 1 ∧
    (do_upload envMissing initStats).1.uploaded = initStats.uploaded ∧
    (do_upload envMissing initStats).1.bytesUploaded = initStats.bytesUploaded ∧
    (do_upload envMissing initStats).2.uploadAttempted = false ∧
    (∀ (l r : List Active) (s : EngineState) (it : Item),
      (finishFn l r it envMissing s).queue = s.queue) :=
  c6_file_not_found_amended envMissing initStats rfl

/-- C7 (counterexample): a file outside the watch root but on the same drive
gets the sanitized `..`-relative path as its key (`__/b/c.mp4`), not the
sanitized bare filename (`c.mp4`). -/
theorem c7_remote_key_counterexample :
    c7full.drive = c7root.drive ∧
    commonLen c7root.comps c7full.comps < c7root.comps.length ∧
    scanKey c7full c7root = "__/b/c.mp4".toList ∧
    sanitize (basename c7full.comps) = "c.mp4".toList ∧
    scanKey c7full c7root ≠ sanitize (basename c7full.comps) := by
  refine ⟨rfl, by decide, by decide, by decide, by decide⟩

/-- C7 (amended): inside the watch root the key is the sanitized relative
path with `/` separators; the bare-filename fallback fires only when
`os.path.relpath` raises (drive mismatch); outside the root on the same drive
the key comes from the `..`-prefixed relative path instead. -/
theorem c7_remote_key_amended :
    (∀ (full root : AbsPath) (rest : List Comp),
      full.drive = root.drive → full.comps = root.comps ++ rest → rest ≠ [] →
      scanKey full root = sanitize (joinSlash rest)) ∧
    (∀ full root : AbsPath, full.drive ≠ root.drive →
      scanKey full root = sanitize (basename full.comps)) ∧
    (∀ full root : AbsPath, full.drive = root.drive →
      commonLen root.comps full.comps < root.comps.length →
      ∃ rl, relpath full root = some (('.' :: ['.']) :: rl) ∧
        scanKey full root = sanitize (joinSlash (('.' :: ['.']) :: rl))) := by
  refine ⟨?_, ?_, ?_⟩
  · intro full root rest hdr hcomps hne
    have hcl : commonLen root.comps full.comps = root.comps.length := by
      rw [hcomps]
      exact commonLen_of_self_append root.comps rest
    have hrl : relList root.comps full.comps = rest := by
      unfold relList
      rw [hcl, Nat.sub_self, List.replicate_zero, List.nil_append, hcomps,
        List.drop_left]
      exact if_neg hne
    have hrel : relpath full root = some rest := by
      unfold relpath
      rw [if_pos hdr, hrl]
    simp only [scanKey, hrel]
  · intro full root hdr
    have hrel : relpath full root = none := by
      unfold relpath
      rw [if_neg hdr]
    simp only [scanKey, hrel]
  · intro full root hdr hlt
    obtain ⟨k, hk⟩ : ∃ k, root.comps.length - commonLen root.comps full.comps = k + 1 :=
      ⟨root.comps.length - commonLen root.comps full.comps - 1, by omega⟩
    have hrl : relList root.comps full.comps =
        ('.' :: ['.']) :: (List.replicate k ('.' :: ['.']) ++
          full.comps.drop (commonLen root.comps full.comps)) := by
      unfold relList
      rw [hk, List.replicate_succ, List.cons_append]
      exact if_neg (List.cons_ne_nil _ _)
    have hrel : relpath full root = some (('.' :: ['.']) ::
        (List.replicate k ('.' :: ['.']) ++
          full.comps.drop (commonLen root.comps full.comps))) := by
      unfold relpath
      rw [if_pos hdr, hrl]
    exact ⟨_, hrel, by simp only [scanKey, hrel]⟩

/-- C7 witness: the three amended cases at concrete paths: a file directly
under the root, a cross-drive file, and a same-drive file outside the root. -/
theorem c7_remote_key_witness :
    scanKey w7full w7root = sanitize (joinSlash [("v.mp4".toList : Comp)]) ∧
    scanKey w7cross w7root = sanitize (basename w7cross.comps) ∧
    (∃ rl, relpath c7full c7root = some (('.' :: ['.']) :: rl) ∧
      scanKey c7full c7root = sanitize (joinSlash (('.' :: ['.']) :: rl))) :=
  ⟨c7_remote_key_amended.1 w7full w7root ["v.mp4".toList] rfl rfl (by decide),
   c7_remote_key_amended.2.1 w7cross w7root (by decide),
   c7_remote_key_amended.2.2 c7full c7root rfl (by decide)⟩

/-- C2 (counterexample): a watch-triggered enqueue never increments `total`,
so after a scan of an empty folder, one watcher enqueue and one successful
worker completion, `uploaded + skipped + failed = 1 > 0 = total` in a
reachable state, and the `GetStats` snapshot there has `eta = -1 < 0`. -/
theorem c2_stats_counterexample :
    ∃ s : EngineState, Reach initState s ∧
      s.stats.total < s.stats.uploaded + s.stats.skipped + s.stats.failed ∧
      ∃ snap, get_stats s.stats 2 s.isPaused = some snap ∧ snap.eta < 0 := by
  refine ⟨finishFn [] [] itVideo envOk (claimFn itVideo []
      (watchFn pVideo ("v.mp4".toList)
        (scanFn 1 pEmpty [] [] (startFn initState)))), ?_, ?_, ?_⟩
  · refine Relation.ReflTransGen.head ⟨Lab.start, Step.start initState rfl⟩ ?_
    refine Relation.ReflTransGen.head ⟨Lab.scan, Step.scan _ 1 pEmpty [] []⟩ ?_
    refine Relation.ReflTransGen.head
      ⟨Lab.watch, Step.watch _ pVideo pEmpty ("v.mp4".toList) (by decide)⟩ ?_
    refine Relation.ReflTransGen.head
      ⟨Lab.claim, Step.claim _ itVideo [] (by decide) rfl rfl (by decide)⟩ ?_
    exact Relation.ReflTransGen.single
      ⟨Lab.finish, Step.finish _ [] [] itVideo envOk (by decide)⟩
  · decide
  · refine ⟨⟨1, 5, 1, -1, false⟩, ?_, by norm_num⟩
    norm_num [get_stats, speedOf, etaOf, elapsedOf, checkedDiv, finishFn, claimFn,
      watchFn, scanFn, startFn, initState, initStats, do_upload, envOk, itVideo,
      pVideo, pEmpty, scanDiff]

/-- C2 (amended): `GetStats` never divides by zero (the snapshot always
exists) and `speed` is never negative; `eta` is non-negative whenever
`uploaded + skipped + failed ≤ total` holds and the clock has not gone
backwards; and that inequality is an invariant of every execution consisting
of one scan-and-diff pass started from an idle engine with no watch-triggered
enqueues and no overlapping scan (watch completions can violate it, see the
counterexample). -/
theorem c2_stats_amended :
    (∀ (st : Stats) (now : ℚ) (p : Bool),
      ∃ snap, get_stats st now p = some snap ∧ 0 ≤ snap.speed) ∧
    (∀ (st : Stats) (now : ℚ) (p : Bool) (snap : Snapshot),
      get_stats st now p = some snap →
      st.uploaded + st.skipped + st.failed ≤ st.total → st.startTime ≤ now →
      0 ≤ snap.eta) ∧
    (∀ (s₀ : EngineState) (t : ℚ) (root : AbsPath) (L : List (AbsPath × Chars))
      (R : List Chars) (s : EngineState),
      s₀.queue = [] → upCount s₀.active = 0 →
      ReachSO (scanFn t root L R s₀) s →
      s.stats.uploaded + s.stats.skipped + s.stats.failed ≤ s.stats.total) := by
  refine ⟨?_, ?_, ?_⟩
  · intro st now p
    obtain ⟨v, hv, hv0⟩ := speedOf_some st now p
    obtain ⟨w, hw⟩ := etaOf_some st now
    refine ⟨⟨st.uploaded + st.skipped, v, elapsedOf st now, w, p⟩, ?_, hv0⟩
    unfold get_stats
    rw [hv, hw]
  · intro st now p snap hsnap hle hnow
    obtain ⟨v, hv, _⟩ := speedOf_some st now p
    obtain ⟨w, hw⟩ := etaOf_some st now
    unfold get_stats at hsnap
    rw [hv, hw] at hsnap
    simp only [Option.some_inj] at hsnap
    rw [← hsnap]
    exact etaOf_nonneg hle hnow hw
  · intro s₀ t root L R s hq ha hreach
    have hJ := reachSO_J (J_scan s₀ hq ha t root L R) hreach
    unfold J at hJ
    omega

/-- C2 witness: the always-some/speed part at fresh stats; the eta part at a
stats record with one completed upload; the invariant part at the state right
after a scan pass from the idle initial state. -/
theorem c2_stats_witness :
    (∃ snap, get_stats initStats 0 false = some snap ∧ 0 ≤ snap.speed) ∧
    (0 : ℚ) ≤ (⟨1, 0, 0, 0, false⟩ : Snapshot).eta ∧
    (scanFn 1 pEmpty [] [] initState).stats.uploaded +
      (scanFn 1 pEmpty [] [] initState).stats.skipped +
      (scanFn 1 pEmpty [] [] initState).stats.failed ≤
      (scanFn 1 pEmpty [] [] initState).stats.total :=
  ⟨c2_stats_amended.1 initStats 0 false,
   c2_stats_amended.2.1 ⟨1, 1, 0, 0, 0, 0⟩ 0 false ⟨1, 0, 0, 0, false⟩
     (by simp [get_stats, speedOf, etaOf, elapsedOf, checkedDiv])
     (by decide) (le_refl 0),
   c2_stats_amended.2.2 initState 1 pEmpty [] [] (scanFn 1 pEmpty [] [] initState)
     rfl rfl Relation.ReflTransGen.refl⟩

end R2Sync
